import Mathlib

/-!
Shallow embedding of the CEASIOMpy lumped-masses inertia and BWB wing-geometry
routines, together with proofs about them.

Sources embedded:
* `ceasiompy/BalanceUnconventional/func/Inertia/lumpedmassesinertia.py`
  (`fuselage_inertia`, `wing_inertia`, `engine_inertia`)
* `ceasiompy/utils/WB/UncGeometry/NoFuseGeom/bwbwingsanalysis.py`
  (`check_segment_connection`, `getwingsegmentlength`, `geom_eval` symmetry block)

Real numbers of the Python code are modelled by `ℚ` (the claims under study are
exact algebraic identities, not float-rounding ones); geometry-kernel calls
(`tigl.*GetPoint`, …) are oracle parameters, since their values come from the
CAD kernel and not from this code.
-/

/-- A 3-D point as produced by the tigl geometry kernel. -/
structure Pt3 where
  x : ℚ
  y : ℚ
  z : ℚ
deriving DecidableEq, Repr

/-- The six independent inertia-tensor accumulators
(`Ixx, Iyy, Izz, Ixy, Iyz, Ixz` in the Python code). -/
structure Inertia6 where
  ixx : ℚ
  iyy : ℚ
  izz : ℚ
  ixy : ℚ
  iyz : ℚ
  ixz : ℚ
deriving DecidableEq, Repr

instance : Add Inertia6 :=
  ⟨fun a b => ⟨a.ixx + b.ixx, a.iyy + b.iyy, a.izz + b.izz,
               a.ixy + b.ixy, a.iyz + b.iyz, a.ixz + b.ixz⟩⟩

/-- The zero tensor (`Ixx = 0`, … at the top of each Python function). -/
def Inertia6.zero : Inertia6 := ⟨0, 0, 0, 0, 0, 0⟩

/-- One point's contribution to the six tensor entries
(lumpedmassesinertia.py lines 128-133 / 236-241: each sampled point
contributes `M*(dy²+dz²)` to `Ixx`, `M*(dx²+dz²)` to `Iyy`, `M*(dx²+dy²)`
to `Izz` and `M*dx*dy`, `M*dy*dz`, `M*dx*dz` to the products of inertia,
where `dx,dy,dz` are offsets from the centre of gravity). -/
def pointContrib (cog : Pt3) (M : ℚ) (p : Pt3) : Inertia6 :=
  let dx := p.x - cog.x
  let dy := p.y - cog.y
  let dz := p.z - cog.z
  ⟨M * (dy ^ 2 + dz ^ 2), M * (dx ^ 2 + dz ^ 2), M * (dx ^ 2 + dy ^ 2),
   M * dx * dy, M * dy * dz, M * dx * dz⟩

/-- Tensor of a whole point cloud, every point carrying the same mass `M`
(the `np.sum(M * ...)` accumulations of the Python code). -/
def tensor6 (cog : Pt3) (M : ℚ) (pts : List Pt3) : Inertia6 :=
  ⟨(pts.map fun p => (pointContrib cog M p).ixx).sum,
   (pts.map fun p => (pointContrib cog M p).iyy).sum,
   (pts.map fun p => (pointContrib cog M p).izz).sum,
   (pts.map fun p => (pointContrib cog M p).ixy).sum,
   (pts.map fun p => (pointContrib cog M p).iyz).sum,
   (pts.map fun p => (pointContrib cog M p).ixz).sum⟩

/-! ## Engine inertia (lumpedmassesinertia.py lines 279-312) -/

/-- The fields of the `EngineData` class that `engine_inertia` reads:
the number of engines `NE`, the placement matrix `EN_PLACEMENT` (row `e`
is engine `e`'s x,y,z position) and the single engine mass `en_mass`. -/
structure EngineData where
  NE : ℕ
  EN_PLACEMENT : ℕ → Pt3
  en_mass : ℚ

/-- `engine_inertia(center_of_gravity, EngineData)`, lines 294-312: loops
over engines `e = 0 .. NE-1`, offsets the placement by the centre of
gravity, and accumulates the six entries.  Note the source's line 310 is
literally `Ixz += EngineData.en_mass * cx * cx` (not `cx * cz`). -/
def engine_inertia (cog : Pt3) (ed : EngineData) : Inertia6 :=
  (List.range ed.NE).foldl
    (fun acc e =>
      let cx := (ed.EN_PLACEMENT e).x - cog.x
      let cy := (ed.EN_PLACEMENT e).y - cog.y
      let cz := (ed.EN_PLACEMENT e).z - cog.z
      ⟨acc.ixx + ed.en_mass * (cy ^ 2 + cz ^ 2),
       acc.iyy + ed.en_mass * (cx ^ 2 + cz ^ 2),
       acc.izz + ed.en_mass * (cx ^ 2 + cy ^ 2),
       acc.ixy + ed.en_mass * cx * cy,
       acc.iyz + ed.en_mass * cy * cz,
       acc.ixz + ed.en_mass * cx * cx⟩)
    Inertia6.zero

/-- A concrete single-engine configuration exhibiting the `Ixz` slip:
one engine of mass 1 placed at `(1, 0, 2)`. -/
def engineExample : EngineData :=
  ⟨1, fun _ => ⟨1, 0, 2⟩, 1⟩

/-! ## Mirror factors (lumpedmassesinertia.py lines 242-254,
bwbwingsanalysis.py lines 356-374) -/

/-- The per-axis sign factors `(symx, symy, symz)` selected from the wing
symmetry code: `1` = x-y plane (`symz = -1`), `2` = x-z plane
(`symy = -1`), `3` = y-z plane (`symx = -1`).  The Python assigns the
three factors only for codes 1, 2, 3 (any other nonzero code would leave
them undefined and crash); the catch-all branch here is never reached by
the claims, which only concern codes 0-3. -/
def symFactors : ℤ → ℚ × ℚ × ℚ
  | 1 => (1, 1, -1)
  | 2 => (1, -1, 1)
  | 3 => (-1, 1, 1)
  | _ => (1, 1, 1)

/-- Mirroring one sampled point: coordinate-wise multiplication by the sign
factors (`wx_t = wx * symx` etc., lines 255-257). -/
def mirrorPoint (sym : ℤ) (p : Pt3) : Pt3 :=
  ⟨(symFactors sym).1 * p.x, (symFactors sym).2.1 * p.y, (symFactors sym).2.2 * p.z⟩

/-- C3: engine_inertia is claimed to accumulate `Ixz += m*dx*dz`; the code
instead accumulates `m*dx*dx`.  At one engine of mass 1 placed at
`(1,0,2)` with the centre of gravity at the origin, the code returns
`Ixz = 1` while the claimed parallel-axis formula gives
`m*dx*dz = 1*1*2 = 2`. -/
theorem C3_engine_ixz_bug :
    (engine_inertia ⟨0, 0, 0⟩ engineExample).ixz = 1 ∧
    engineExample.en_mass *
        ((engineExample.EN_PLACEMENT 0).x - 0) *
        ((engineExample.EN_PLACEMENT 0).z - 0) = 2 ∧
    (1 : ℚ) ≠ 2 := by
  refine ⟨?_, ?_, by norm_num⟩ <;>
    norm_num [engine_inertia, engineExample, Inertia6.zero, List.range_succ]

/-- C5: the mirrored point coordinates are the originals with exactly one
sign flip determined by the declared plane: code 1 (XY plane) negates `z`
only, code 2 (XZ plane) negates `y` only, code 3 (YZ plane) negates `x`
only; the other two coordinates are unchanged. -/
theorem C5_mirror_single_sign_flip (p : Pt3) :
    mirrorPoint 1 p = ⟨p.x, p.y, -p.z⟩ ∧
    mirrorPoint 2 p = ⟨p.x, -p.y, p.z⟩ ∧
    mirrorPoint 3 p = ⟨-p.x, p.y, p.z⟩ := by
  refine ⟨?_, ?_, ?_⟩ <;> simp [mirrorPoint, symFactors]

/-! ## Helper list lemmas -/

/-- Sum of a pointwise-nonnegative map is nonnegative. -/
theorem sum_map_nonneg {α : Type} (l : List α) (f : α → ℚ)
    (h : ∀ a ∈ l, 0 ≤ f a) : 0 ≤ (l.map f).sum := by
  induction l with
  | nil => simp
  | cons a t ih =>
      simp only [List.map_cons, List.sum_cons]
      have ha := h a (List.mem_cons_self a t)
      have ht := ih fun b hb => h b (List.mem_cons_of_mem a hb)
      linarith

/-- If `g` is pointwise the negation of `h`, summing `g` negates the sum of `h`. -/
theorem sum_map_neg_eq {α : Type} (l : List α) (g f : α → ℚ)
    (hgf : ∀ a, g a = -(f a)) : (l.map g).sum = -((l.map f).sum) := by
  induction l with
  | nil => simp
  | cons a t ih => simp [hgf, ih]; ring

/-- If `g` and `f` agree pointwise, their map-sums agree. -/
theorem sum_map_congr_eq {α : Type} (l : List α) (g f : α → ℚ)
    (hgf : ∀ a, g a = f a) : (l.map g).sum = (l.map f).sum := by
  induction l with
  | nil => simp
  | cons a t ih => simp [hgf, ih]

/-- C6: with nonnegative point mass, mirroring a cloud (any declared plane
1, 2 or 3) gives nonnegative `Ixx`, `Iyy`, `Izz` contributions — the same
formulas evaluated on the mirrored coordinates — while for the XZ-plane
mirror (code 2) about a centre of gravity lying in that plane (`cog.y = 0`)
the `Ixy` and `Iyz` contributions flip sign and the `Ixz` contribution
does not. -/
theorem C6_mirror_tensor_signs (cog : Pt3) (M : ℚ) (pts : List Pt3)
    (hM : 0 ≤ M) (hcog : cog.y = 0) :
    (∀ s : ℤ, 0 ≤ (tensor6 cog M (pts.map (mirrorPoint s))).ixx ∧
              0 ≤ (tensor6 cog M (pts.map (mirrorPoint s))).iyy ∧
              0 ≤ (tensor6 cog M (pts.map (mirrorPoint s))).izz) ∧
    (tensor6 cog M (pts.map (mirrorPoint 2))).ixy = -(tensor6 cog M pts).ixy ∧
    (tensor6 cog M (pts.map (mirrorPoint 2))).iyz = -(tensor6 cog M pts).iyz ∧
    (tensor6 cog M (pts.map (mirrorPoint 2))).ixz = (tensor6 cog M pts).ixz := by
  constructor
  · intro s
    refine ⟨?_, ?_, ?_⟩ <;>
      exact sum_map_nonneg _ _ fun p _ => by
        simp only [pointContrib]
        positivity
  · simp only [tensor6, List.map_map]
    refine ⟨?_, ?_, ?_⟩
    · exact sum_map_neg_eq _ _ _ fun p => by
        simp [Function.comp, pointContrib, mirrorPoint, symFactors, hcog]
    · exact sum_map_neg_eq _ _ _ fun p => by
        simp [Function.comp, pointContrib, mirrorPoint, symFactors, hcog]
    · exact sum_map_congr_eq _ _ _ fun p => by
        simp [Function.comp, pointContrib, mirrorPoint, symFactors, hcog]

/-- Witness for `C6_mirror_tensor_signs`. -/
theorem C6_mirror_tensor_signs_witness :
    0 ≤ (tensor6 ⟨5, 0, 7⟩ (3 : ℚ) ([⟨1, 2, 3⟩].map (mirrorPoint 1))).ixx ∧
    (tensor6 ⟨5, 0, 7⟩ (3 : ℚ) ([⟨1, 2, 3⟩].map (mirrorPoint 2))).ixy =
      -(tensor6 ⟨5, 0, 7⟩ (3 : ℚ) [⟨1, 2, 3⟩]).ixy := by
  have h := C6_mirror_tensor_signs ⟨5, 0, 7⟩ 3 [⟨1, 2, 3⟩] (by norm_num) rfl
  exact ⟨(h.1 1).1, h.2.1⟩

/-! ## Subdivision counts (lumpedmassesinertia.py lines 85-95 and 197-199) -/

/-- The subdivision-count pattern of the Python code:
`c = math.ceil(length / SPACING); if c == 0: c = 1`.
`fuselage_inertia` applies it to the segment length, the section perimeter
and half the section width (lines 85-95); `wing_inertia` applies it to the
wing segment length (lines 197-199). -/
def subdClamp (len SPACING : ℚ) : ℤ :=
  let c := ⌈len / SPACING⌉
  if c = 0 then 1 else c

/-- For a nonnegative length and positive spacing the clamped count is
`max 1 ⌈len/SPACING⌉`. -/
theorem subdClamp_eq_max (len SPACING : ℚ) (hl : 0 ≤ len) (hS : 0 < SPACING) :
    subdClamp len SPACING = max 1 ⌈len / SPACING⌉ := by
  have hc : 0 ≤ ⌈len / SPACING⌉ := Int.ceil_nonneg (div_nonneg hl hS.le)
  by_cases h0 : ⌈len / SPACING⌉ = 0
  · simp [subdClamp, h0]
  · simp only [subdClamp, h0, if_false]
    omega

/-- C7: the fuselage longitudinal, circumferential and radial counts equal
`ceil(length/SPACING)`, `ceil(perimeter/SPACING)` and
`ceil((width/2)/SPACING)`; a computed count of zero is clamped to 1 (so
all counts are at least 1, never an error), and the same clamping applies
to the wing spanwise count. -/
theorem C7_subdivision_counts (SPACING l p w lw : ℚ)
    (hS : 0 < SPACING) (hl : 0 ≤ l) (hp : 0 ≤ p) (hw : 0 ≤ w) (hlw : 0 ≤ lw) :
    (subdClamp l SPACING = max 1 ⌈l / SPACING⌉ ∧
     subdClamp p SPACING = max 1 ⌈p / SPACING⌉ ∧
     subdClamp (w / 2) SPACING = max 1 ⌈w / 2 / SPACING⌉ ∧
     subdClamp lw SPACING = max 1 ⌈lw / SPACING⌉) ∧
    (⌈l / SPACING⌉ = 0 → subdClamp l SPACING = 1) ∧
    (⌈l / SPACING⌉ ≠ 0 → subdClamp l SPACING = ⌈l / SPACING⌉) ∧
    1 ≤ subdClamp l SPACING ∧ 1 ≤ subdClamp p SPACING ∧
    1 ≤ subdClamp (w / 2) SPACING ∧ 1 ≤ subdClamp lw SPACING := by
  have e1 := subdClamp_eq_max l SPACING hl hS
  have e2 := subdClamp_eq_max p SPACING hp hS
  have e3 := subdClamp_eq_max (w / 2) SPACING (by positivity) hS
  have e4 := subdClamp_eq_max lw SPACING hlw hS
  refine ⟨⟨e1, e2, e3, e4⟩, ?_, ?_, ?_, ?_, ?_, ?_⟩ <;>
    first
      | (intro h0; unfold subdClamp; simp [h0])
      | omega

/-- Witness for `C7_subdivision_counts`: spacing 1; the first length is 0,
so its raw count `⌈0/1⌉ = 0` really is clamped to 1. -/
theorem C7_subdivision_counts_witness :
    (0 : ℚ) < 1 ∧ subdClamp 0 1 = 1 ∧ subdClamp (3/2) 1 = 2 := by
  have h := C7_subdivision_counts 1 0 (3/2) 1 1 (by norm_num) (by norm_num)
    (by norm_num) (by norm_num) (by norm_num)
  refine ⟨by norm_num, h.2.1 (by norm_num), ?_⟩
  rw [h.1.2.1]
  have hceil : ⌈(3 : ℚ) / 2 / 1⌉ = 2 := by
    rw [div_one, Int.ceil_eq_iff]
    norm_num
  rw [hceil]
  omega

/-! ## Wing segment length (bwbwingsanalysis.py lines 157-166) -/

/-- The squared Euclidean distance between two consecutive segment-centre
points; `getwingsegmentlength` (lines 160-163) sets
`awg.wing_seg_length[j-1][i+a-1] = math.sqrt` of exactly this quantity. -/
def wing_center_dist_sq (p q : Pt3) : ℚ :=
  (p.x - q.x) ^ 2 + (p.y - q.y) ^ 2 + (p.z - q.z) ^ 2

/-- C9: the segment length computed by `getwingsegmentlength` is the
Euclidean distance between the two consecutive segment-centre points; it
is non-negative and unchanged when the two endpoints are swapped. -/
theorem C9_segment_length_symmetric (p q : Pt3) :
    0 ≤ Real.sqrt (wing_center_dist_sq p q : ℝ) ∧
    Real.sqrt (wing_center_dist_sq p q : ℝ) =
      Real.sqrt (wing_center_dist_sq q p : ℝ) ∧
    0 ≤ wing_center_dist_sq p q := by
  refine ⟨Real.sqrt_nonneg _, ?_, by unfold wing_center_dist_sq; positivity⟩
  have h : wing_center_dist_sq p q = wing_center_dist_sq q p := by
    unfold wing_center_dist_sq; ring
  rw [h]

/-! ## Chordwise parametric coordinate `ze` (lumpedmassesinertia.py
lines 186-189 and 203-225) -/

/-- `DEN`: the loop `for d in range(int(subd_c+2)): DEN = DEN + d`
(lines 186-188), i.e. the sum `0 + 1 + ... + (subd_c+1)`. -/
def wingDEN (subd_c : ℕ) : ℚ :=
  (List.map (fun d : ℕ => (d : ℚ)) (List.range (subd_c + 2))).sum

/-- The value of `ze` passed to `wingGetLowerPoint`/`wingGetUpperPoint` at
iteration `k` of the chordwise loop (lines 219-225): starting from
`start` (0.0 when the leading edge is at `ze = 0`, 1.0 otherwise), each
iteration adds `sgn * k * zeta` with `zeta = 1.0/DEN` (line 189), and the
oracle is called with the updated value. -/
def zeStep (subd_c : ℕ) (start sgn : ℚ) : ℕ → ℚ
  | 0 => start + sgn * 0 * (1 / wingDEN subd_c)
  | k + 1 => zeStep subd_c start sgn k + sgn * ((k : ℚ) + 1) * (1 / wingDEN subd_c)

/-- Gauss sum for the cast range list. -/
theorem range_cast_sum (n : ℕ) :
    (List.map (fun d : ℕ => (d : ℚ)) (List.range n)).sum = n * (n - 1) / 2 := by
  induction n with
  | zero => simp
  | succ m ih =>
      rw [List.range_succ, List.map_append, List.sum_append, ih]
      simp only [List.map_cons, List.map_nil, List.sum_cons, List.sum_nil]
      push_cast
      ring

/-- Closed form of `DEN`: `(subd_c+1)(subd_c+2)/2`. -/
theorem wingDEN_eq (c : ℕ) : wingDEN c = ((c : ℚ) + 1) * ((c : ℚ) + 2) / 2 := by
  unfold wingDEN
  rw [range_cast_sum]
  push_cast
  ring

/-- `DEN` is positive. -/
theorem wingDEN_pos (c : ℕ) : 0 < wingDEN c := by
  rw [wingDEN_eq]
  positivity

/-- Closed form of the `ze` recurrence: the cumulative increment after `k`
iterations is the triangular number `k(k+1)/2` times `zeta`. -/
theorem zeStep_closed (c : ℕ) (s sg : ℚ) (k : ℕ) :
    zeStep c s sg k = s + sg * ((k : ℚ) * ((k : ℚ) + 1) / 2) * (1 / wingDEN c) := by
  induction k with
  | zero => simp [zeStep]
  | succ m ih =>
      rw [zeStep, ih]
      push_cast
      ring

/-- C10: every chordwise parametric coordinate `ze` passed to the geometry
oracle lies in `[0, 1]`: starting from 0 (ascending) or 1 (descending),
the cumulative triangular increments `k(k+1)/2 / DEN` with
`DEN = 0 + 1 + ... + (subd_c+1)` never leave the unit interval while
`k ≤ subd_c`. -/
theorem C10_ze_in_unit_interval (subd_c k : ℕ) (hk : k ≤ subd_c) :
    (0 ≤ zeStep subd_c 0 1 k ∧ zeStep subd_c 0 1 k ≤ 1) ∧
    (0 ≤ zeStep subd_c 1 (-1) k ∧ zeStep subd_c 1 (-1) k ≤ 1) := by
  have hD := wingDEN_pos subd_c
  have hT0 : 0 ≤ (k : ℚ) * ((k : ℚ) + 1) / 2 := by positivity
  have hTD : (k : ℚ) * ((k : ℚ) + 1) / 2 ≤ wingDEN subd_c := by
    rw [wingDEN_eq]
    have h1 : (k : ℚ) ≤ (subd_c : ℚ) := by exact_mod_cast hk
    have h0 : (0 : ℚ) ≤ (k : ℚ) := by positivity
    nlinarith
  have ha : zeStep subd_c 0 1 k =
      ((k : ℚ) * ((k : ℚ) + 1) / 2) / wingDEN subd_c := by
    rw [zeStep_closed, mul_one_div]
    ring
  have hd : zeStep subd_c 1 (-1) k =
      1 - ((k : ℚ) * ((k : ℚ) + 1) / 2) / wingDEN subd_c := by
    rw [zeStep_closed, mul_one_div]
    ring
  have hfrac0 : 0 ≤ ((k : ℚ) * ((k : ℚ) + 1) / 2) / wingDEN subd_c :=
    div_nonneg hT0 hD.le
  have hfrac1 : ((k : ℚ) * ((k : ℚ) + 1) / 2) / wingDEN subd_c ≤ 1 :=
    (div_le_one hD).mpr hTD
  rw [ha, hd]
  refine ⟨⟨hfrac0, hfrac1⟩, ⟨by linarith, by linarith⟩⟩

/-- Witness for `C10_ze_in_unit_interval` at `subd_c = 2`, `k = 1`. -/
theorem C10_ze_in_unit_interval_witness :
    (1 ≤ 2) ∧
    (0 ≤ zeStep 2 0 1 1 ∧ zeStep 2 0 1 1 ≤ 1) ∧
    (0 ≤ zeStep 2 1 (-1) 1 ∧ zeStep 2 1 (-1) 1 ≤ 1) :=
  ⟨by norm_num, (C10_ze_in_unit_interval 2 1 (by norm_num)).1,
   (C10_ze_in_unit_interval 2 1 (by norm_num)).2⟩

/-! ## Fuselage sampling and mass assignment
(lumpedmassesinertia.py lines 79-133) -/

/-- Per-segment data read by `fuselage_inertia`: the segment length
`afg.fuse_seg_length[i-1][f-1]`, the section perimeter
`afg.fuse_sec_per[i-1][f-1]`, the externally supplied mass
`mass_seg_i[i-1, f-1]`, the boundary oracle
`tigl.fuselageGetPoint(f, i, j*eta, k*zeta)` (indexed here by the loop
counters `j`, `k`), and the radial sunflower cloud of lines 98-99 and
112-123 for each longitudinal station `j` (its points come from numpy
float `sqrt`/`cos`/`sin` arithmetic on oracle data, so the whole cloud is
oracle data here; an empty list covers the skipped `subd_r <= 0` case). -/
structure FuseSeg where
  seg_length : ℚ
  sec_per : ℚ
  mass : ℚ
  bnd : ℕ → ℕ → Pt3
  radial : ℕ → List Pt3

/-- The flat list `fx`/`fy`/`fz` of points sampled for one fuselage
segment (lines 101-123): for each of `int(subd_l)+1` longitudinal
stations, `int(SUBD_C0)+1` boundary points followed by the station's
radial cloud. -/
def fuse_seg_points (SPACING : ℚ) (s : FuseSeg) : List Pt3 :=
  (List.range ((subdClamp s.seg_length SPACING).toNat + 1)).flatMap fun j =>
    ((List.range ((subdClamp s.sec_per SPACING).toNat + 1)).map fun k => s.bnd j k)
      ++ s.radial j

/-- Total mass assigned to one fuselage component: line 124 gives every
point of segment `i` the mass `mass_seg_i[i-1,f-1] / len(fx)`. -/
def fuselage_component_assigned_mass (SPACING : ℚ) (segs : List FuseSeg) : ℚ :=
  (segs.map fun s =>
    ((fuse_seg_points SPACING s).map fun _ =>
      s.mass / ((fuse_seg_points SPACING s).length : ℚ)).sum).sum

/-! ## Wing sampling and mass assignment
(lumpedmassesinertia.py lines 185-274) -/

/-- Per-segment data read by `wing_inertia`: the segment length
`awg.wing_seg_length[i-1][w+a-1]`, the externally supplied mass
`mass_seg_i[i-1, fuse+w+a-1]`, and the chord oracles
`tigl.wingGetLowerPoint(w, i, et, ze)` / `tigl.wingGetUpperPoint`. -/
structure WingSeg where
  seg_length : ℚ
  mass : ℚ
  lower : ℚ → ℚ → Pt3
  upper : ℚ → ℚ → Pt3

/-- One spanwise station of the wing sampling loop (lines 205-231): the
two leading/trailing chord points at `ze = 0` and `ze = 1`, then for each
`k` the lower and upper surface points at the running chordwise
coordinate `ze` (ascending from 0 when `xle < xle2`, descending from 1
otherwise — lines 207-212 and 219-223, modelled by `zeStep`). -/
def wing_seg_row (subd_c : ℕ) (s : WingSeg) (et : ℚ) : List Pt3 :=
  let ple := s.lower et 0
  let ple2 := s.lower et 1
  let start : ℚ := if ple.x < ple2.x then 0 else 1
  let sgn : ℚ := if ple.x < ple2.x then 1 else -1
  ple :: ple2 ::
    (List.range (subd_c + 1)).flatMap fun k =>
      [s.lower et (zeStep subd_c start sgn k), s.upper et (zeStep subd_c start sgn k)]

/-- The flat list `wx`/`wy`/`wz` of points sampled for one wing segment
(lines 197-231): one row per spanwise station `j = 0 .. int(subd_l)`,
with `et = j * eta`, `eta = 1/subd_l`. -/
def wing_seg_points (SPACING : ℚ) (subd_c : ℕ) (s : WingSeg) : List Pt3 :=
  (List.range ((subdClamp s.seg_length SPACING).toNat + 1)).flatMap fun j =>
    wing_seg_row subd_c s
      ((j : ℚ) * (1 / ((subdClamp s.seg_length SPACING).toNat : ℚ)))

/-- Total mass assigned to one wing component: line 232 gives every point
of segment `i` the mass `mass_seg_i[i-1, fuse+w+a-1] / len(wx)`, and when
the wing has a declared symmetry plane lines 258-261 assign the same
supplied mass again over the mirrored cloud (`M = mass / len(wx_t)`). -/
def wing_component_assigned_mass (SPACING : ℚ) (subd_c : ℕ) (sym : ℤ)
    (segs : List WingSeg) : ℚ :=
  (segs.map fun s =>
    ((wing_seg_points SPACING subd_c s).map fun _ =>
      s.mass / ((wing_seg_points SPACING subd_c s).length : ℚ)).sum +
    (if sym ≠ 0 then
      (((wing_seg_points SPACING subd_c s).map (mirrorPoint sym)).map fun _ =>
        s.mass /
          (((wing_seg_points SPACING subd_c s).map (mirrorPoint sym)).length : ℚ)).sum
     else 0)).sum

/-- The per-segment masses the code reads for one wing component: one read
per processed pass — each segment once, and once more (same array entry,
lines 232 and 261) for the mirrored half when a symmetry plane is
declared. -/
def wing_component_supplied_masses (sym : ℤ) (segs : List WingSeg) : List ℚ :=
  segs.map WingSeg.mass ++ if sym ≠ 0 then segs.map WingSeg.mass else []

/-- Summing a constant map counts the list length. -/
theorem sum_map_const_mass {α : Type} (l : List α) (c : ℚ) :
    (l.map fun _ => c).sum = (l.length : ℚ) * c := by
  induction l with
  | nil => simp
  | cons a t ih =>
      simp only [List.map_cons, List.sum_cons, List.length_cons, ih]
      push_cast
      ring

/-- Dividing a segment's mass equally over its (nonempty) point list and
re-summing returns the mass. -/
theorem assigned_eq_mass {α : Type} (l : List α) (m : ℚ) (h : l ≠ []) :
    (l.map fun _ => m / (l.length : ℚ)).sum = m := by
  rw [sum_map_const_mass]
  have h0 : (l.length : ℚ) ≠ 0 :=
    Nat.cast_ne_zero.mpr (List.length_pos.mpr h).ne'
  field_simp

/-- The fuselage sampler always produces at least one point (the `j = 0`
station contributes at least `int(SUBD_C0)+1 ≥ 1` boundary points). -/
theorem fuse_seg_points_ne_nil (S : ℚ) (s : FuseSeg) :
    fuse_seg_points S s ≠ [] := by
  unfold fuse_seg_points
  rw [List.range_succ_eq_map, List.flatMap_cons]
  intro h
  rcases List.append_eq_nil.mp h with ⟨h1, _⟩
  rcases List.append_eq_nil.mp h1 with ⟨h2, _⟩
  simp at h2

/-- A wing sampling row is never empty (it starts with the two chord
points). -/
theorem wing_seg_row_ne_nil (c : ℕ) (s : WingSeg) (et : ℚ) :
    wing_seg_row c s et ≠ [] := by
  simp [wing_seg_row]

/-- The wing sampler always produces at least one point. -/
theorem wing_seg_points_ne_nil (S : ℚ) (c : ℕ) (s : WingSeg) :
    wing_seg_points S c s ≠ [] := by
  unfold wing_seg_points
  rw [List.range_succ_eq_map, List.flatMap_cons]
  intro h
  rcases List.append_eq_nil.mp h with ⟨h1, _⟩
  exact wing_seg_row_ne_nil c s _ h1

/-- C2: the total mass assigned over all sampled points of a component
equals the sum of the externally supplied per-segment masses (one supplied
value per processed pass; for a wing with a declared symmetry plane the
mirrored half of every segment is processed with the same supplied value,
lines 232/261): each segment's mass is divided equally among the points
sampled for that segment, and re-summing is exact over `ℚ`. -/
theorem C2_mass_conservation (SPACING : ℚ) (subd_c : ℕ) (sym : ℤ)
    (fsegs : List FuseSeg) (wsegs : List WingSeg)
    (hfm : ∀ s ∈ fsegs, 0 ≤ s.mass) (hwm : ∀ s ∈ wsegs, 0 ≤ s.mass) :
    fuselage_component_assigned_mass SPACING fsegs =
      (fsegs.map FuseSeg.mass).sum ∧
    wing_component_assigned_mass SPACING subd_c sym wsegs =
      (wing_component_supplied_masses sym wsegs).sum := by
  constructor
  · induction fsegs with
    | nil => simp [fuselage_component_assigned_mass]
    | cons s t ih =>
        have ihs := ih fun a ha => hfm a (List.mem_cons_of_mem s ha)
        simp only [fuselage_component_assigned_mass, List.map_cons,
          List.sum_cons] at ihs ⊢
        rw [assigned_eq_mass _ _ (fuse_seg_points_ne_nil SPACING s), ihs]
  · induction wsegs with
    | nil => simp [wing_component_assigned_mass, wing_component_supplied_masses]
    | cons s t ih =>
        have ihs := ih fun a ha => hwm a (List.mem_cons_of_mem s ha)
        by_cases hsym : sym ≠ 0
        · have hmt : ((wing_seg_points SPACING subd_c s).map (mirrorPoint sym)) ≠ [] := by
            intro h
            exact wing_seg_points_ne_nil SPACING subd_c s (List.map_eq_nil_iff.mp h)
          simp only [wing_component_assigned_mass,
            wing_component_supplied_masses, if_pos hsym, List.map_cons,
            List.sum_cons, List.sum_append] at ihs ⊢
          rw [assigned_eq_mass _ _ (wing_seg_points_ne_nil SPACING subd_c s),
            assigned_eq_mass _ _ hmt]
          linarith [ihs]
        · simp only [wing_component_assigned_mass,
            wing_component_supplied_masses, if_neg hsym, List.map_cons,
            List.sum_cons, List.sum_append, List.sum_nil, List.append_nil,
            add_zero] at ihs ⊢
          rw [assigned_eq_mass _ _ (wing_seg_points_ne_nil SPACING subd_c s)]
          linarith [ihs]

/-- Witness for `C2_mass_conservation`: one fuselage segment and one wing
segment of unit mass, constant oracles, `SPACING = 1`, `sym = 2`. -/
theorem C2_mass_conservation_witness :
    fuselage_component_assigned_mass 1
        [⟨1, 1, 1, fun _ _ => ⟨0, 0, 0⟩, fun _ => []⟩] =
      ([⟨1, 1, 1, fun _ _ => ⟨0, 0, 0⟩, fun _ => []⟩].map FuseSeg.mass).sum ∧
    wing_component_assigned_mass 1 0 2
        [⟨1, 1, fun _ _ => ⟨0, 0, 0⟩, fun _ _ => ⟨0, 0, 0⟩⟩] =
      (wing_component_supplied_masses 2
        [⟨1, 1, fun _ _ => ⟨0, 0, 0⟩, fun _ _ => ⟨0, 0, 0⟩⟩]).sum :=
  C2_mass_conservation 1 0 2 _ _
    (fun s hs => by
      rcases List.mem_singleton.mp hs with rfl
      norm_num)
    (fun s hs => by
      rcases List.mem_singleton.mp hs with rfl
      norm_num)

/-! ## Per-segment wing result and the symmetry branch
(lumpedmassesinertia.py lines 203-270) -/

/-- The unmirrored accumulation for one wing segment: the tensor of its
sampled cloud with per-point mass `mass / len(wx)` (lines 232-241). -/
def wing_seg_base (SPACING : ℚ) (subd_c : ℕ) (cog : Pt3) (s : WingSeg) : Inertia6 :=
  tensor6 cog
    (s.mass / ((wing_seg_points SPACING subd_c s).length : ℚ))
    (wing_seg_points SPACING subd_c s)

/-- What one wing segment contributes to the output: the sampled points
and base tensor always; when `awg.wing_sym[w-1] != 0` (lines 242-270) the
mirrored points are appended to the output cloud and the mirrored
tensor — with per-point mass `mass / len(wx_t)` (line 261) — is added. -/
def wing_seg_result (SPACING : ℚ) (subd_c : ℕ) (sym : ℤ) (cog : Pt3)
    (s : WingSeg) : List Pt3 × Inertia6 :=
  let pts := wing_seg_points SPACING subd_c s
  if sym ≠ 0 then
    let pts_t := pts.map (mirrorPoint sym)
    (pts ++ pts_t,
     wing_seg_base SPACING subd_c cog s +
       tensor6 cog (s.mass / ((pts_t.length : ℕ) : ℚ)) pts_t)
  else
    (pts, wing_seg_base SPACING subd_c cog s)

/-- The whole-component accumulation of `wing_inertia` for one wing:
fold the per-segment contributions into the growing output cloud
(`swx`/`swy`/`swz`) and tensor. -/
def wing_component (SPACING : ℚ) (subd_c : ℕ) (sym : ℤ) (cog : Pt3)
    (segs : List WingSeg) : List Pt3 × Inertia6 :=
  segs.foldl
    (fun acc s =>
      let r := wing_seg_result SPACING subd_c sym cog s
      (acc.1 ++ r.1, acc.2 + r.2))
    ([], Inertia6.zero)

/-- C8: with symmetry code 0 no mirrored points are appended and no
mirrored tensor contribution is added — the component result is exactly
the fold of the unmirrored per-segment clouds and base tensors. -/
theorem C8_no_symmetry_no_mirror (SPACING : ℚ) (subd_c : ℕ) (cog : Pt3)
    (segs : List WingSeg) :
    wing_component SPACING subd_c 0 cog segs =
      segs.foldl
        (fun acc s =>
          (acc.1 ++ wing_seg_points SPACING subd_c s,
           acc.2 + wing_seg_base SPACING subd_c cog s))
        ([], Inertia6.zero) := by
  unfold wing_component
  have key : ∀ (l : List WingSeg) (acc : List Pt3 × Inertia6),
      l.foldl
        (fun acc s =>
          let r := wing_seg_result SPACING subd_c 0 cog s
          (acc.1 ++ r.1, acc.2 + r.2)) acc =
      l.foldl
        (fun acc s =>
          (acc.1 ++ wing_seg_points SPACING subd_c s,
           acc.2 + wing_seg_base SPACING subd_c cog s)) acc := by
    intro l
    induction l with
    | nil => intro acc; rfl
    | cons s t ih =>
        intro acc
        rw [List.foldl_cons, List.foldl_cons, ih]
        have hstep :
            (let r := wing_seg_result SPACING subd_c 0 cog s
             ((acc.1 ++ r.1, acc.2 + r.2) : List Pt3 × Inertia6)) =
            (acc.1 ++ wing_seg_points SPACING subd_c s,
             acc.2 + wing_seg_base SPACING subd_c cog s) := by
          simp [wing_seg_result]
        rw [hstep]
  exact key segs ([], Inertia6.zero)

/-! ## Segment/section chain reordering
(bwbwingsanalysis.py lines 41-127, `check_segment_connection`) -/

/-- One row of the per-wing `seg_sec` array (lines 89-93): the inner
(start) section index, the outer (end) section index, and the segment
index `j` itself. -/
structure WSeg where
  sStart : ℕ
  sEnd : ℕ
  sIdx : ℕ
deriving DecidableEq, Repr

/-- The root-selection scan of lines 94-109: starting from segment 1 and
the reference coordinate `coord0` (from `wingGetChordPoint(i,1,0.0,0.0)`),
every segment `j = 2 .. n` whose outer chord coordinate `coord j` (from
`wingGetChordPoint(i,j,1.0,0.0)`; the code picks the y stream for
horizontal wings and the z stream for vertical ones by the planform-area
test of lines 99-100) is strictly smaller than the best seen so far
becomes the new root.  Returns the (1-based) segment number of the root. -/
def selectRootIdx (n : ℕ) (coord0 : ℚ) (coord : ℕ → ℚ) : ℕ :=
  ((List.range' 2 (n - 1)).foldl
    (fun best j => if coord j < best.2 then (j, coord j) else best)
    (1, coord0)).1

/-- The `np.where(seg_sec[:,i-1,0] == end_sec)` lookup of line 112
followed by the single-row assignment of line 113: exactly one matching
row succeeds; zero rows (broadcast of an empty slice) or several rows
(broadcast of a `(k,3)` slice into `(3,)`) raise a `ValueError` in numpy,
modelled by `none`. -/
def chainNext (segs : List WSeg) (prev : WSeg) : Option WSeg :=
  match segs.filter (fun t => t.sStart == prev.sEnd) with
  | [s] => some s
  | _ => none

/-- The reordering loop of lines 110-113: `n` consecutive unique-match
lookups, each keyed on the previous reordered segment's end section. -/
def chainFrom (segs : List WSeg) (prev : WSeg) : ℕ → Option (List WSeg)
  | 0 => some []
  | n + 1 =>
      match chainNext segs prev with
      | none => none
      | some s =>
          match chainFrom segs s n with
          | none => none
          | some rest => some (s :: rest)

/-- Per-wing `check_segment_connection`: select the root segment
(lines 94-109, `seg_sec_reordered[0,i-1,:]`), then chain the remaining
`n - 1` positions (lines 110-113). -/
def check_segment_connection_wing (segs : List WSeg) (coord0 : ℚ)
    (coord : ℕ → ℚ) : Option (List WSeg) :=
  match segs[selectRootIdx segs.length coord0 coord - 1]? with
  | none => none
  | some root =>
      match chainFrom segs root (segs.length - 1) with
      | none => none
      | some rest => some (root :: rest)

/-- `chainB prev l` holds when `l` chains on from `prev`: each element's
start section is the previous element's end section. -/
def chainB : WSeg → List WSeg → Bool
  | _, [] => true
  | prev, s :: t => (s.sStart == prev.sEnd) && chainB s t

/-- With pairwise-distinct start sections, filtering on a member's start
section returns exactly that member. -/
theorem filter_start_singleton (segs : List WSeg) (s : WSeg)
    (hnd : (segs.map WSeg.sStart).Nodup) (hs : s ∈ segs) :
    segs.filter (fun t => t.sStart == s.sStart) = [s] := by
  induction segs with
  | nil => cases hs
  | cons a t ih =>
      rw [List.map_cons, List.nodup_cons] at hnd
      rcases List.mem_cons.mp hs with rfl | hmem
      · rw [List.filter_cons_of_pos (by simp)]
        have ht : t.filter (fun x => x.sStart == s.sStart) = [] := by
          refine List.filter_eq_nil_iff.mpr fun x hx => ?_
          simp only [beq_iff_eq]
          intro hEq
          exact hnd.1 (List.mem_map.mpr ⟨x, hx, hEq⟩)
        rw [ht]
      · have hne : a.sStart ≠ s.sStart := by
          intro hEq
          exact hnd.1 (hEq ▸ List.mem_map.mpr ⟨s, hmem, rfl⟩)
        rw [List.filter_cons_of_neg (by simp [hne])]
        exact ih hnd.2 hmem

/-- The unique-match lookup finds the chain successor. -/
theorem chainNext_eq (segs : List WSeg) (prev s : WSeg)
    (hnd : (segs.map WSeg.sStart).Nodup) (hs : s ∈ segs)
    (h : s.sStart = prev.sEnd) : chainNext segs prev = some s := by
  unfold chainNext
  have hf : segs.filter (fun t => t.sStart == prev.sEnd) = [s] := by
    rw [← h]
    exact filter_start_singleton segs s hnd hs
  rw [hf]

/-- If `rest` chains on from `prev` inside `segs` (distinct starts), the
reordering loop reproduces `rest`. -/
theorem chainFrom_of_chainB (segs : List WSeg)
    (hnd : (segs.map WSeg.sStart).Nodup) (rest : List WSeg) :
    ∀ prev : WSeg, (∀ x ∈ rest, x ∈ segs) → chainB prev rest = true →
      chainFrom segs prev rest.length = some rest := by
  induction rest with
  | nil => intro prev _ _; rfl
  | cons s t ih =>
      intro prev hsub hch
      simp only [chainB, Bool.and_eq_true, beq_iff_eq] at hch
      have h1 : chainNext segs prev = some s :=
        chainNext_eq segs prev s hnd (hsub s (List.mem_cons_self s t)) hch.1
      have h2 : chainFrom segs s t.length = some t :=
        ih s (fun x hx => hsub x (List.mem_cons_of_mem s hx)) hch.2
      simp only [List.length_cons, chainFrom, h1, h2]

/-- A chained list has adjacent start/end sections at every position. -/
theorem chainB_getD (d : WSeg) (rest : List WSeg) :
    ∀ prev : WSeg, chainB prev rest = true →
      ∀ j, j + 1 < (prev :: rest).length →
        ((prev :: rest).getD (j + 1) d).sStart =
          ((prev :: rest).getD j d).sEnd := by
  induction rest with
  | nil =>
      intro prev _ j hj
      simp at hj
  | cons s t ih =>
      intro prev hch j hj
      simp only [chainB, Bool.and_eq_true, beq_iff_eq] at hch
      cases j with
      | zero => simpa using hch.1
      | succ k =>
          have hk : k + 1 < (s :: t).length := by
            simpa [List.length_cons] using hj
          simpa [List.getD_cons_succ] using ih s hch.2 k hk

/-- C1: for a wing whose segments form a connected chain — pairwise
distinct start sections, and a permutation of a chain issuing from the
scan-selected root segment — the reordering of `check_segment_connection`
succeeds and returns exactly that chain: the reordered segment at every
position `j ≥ 2` starts at the section where the reordered segment at
position `j-1` ends, and the chain begins at the root selected by the
lowest-coordinate scan. -/
theorem C1_reordered_chain (segs : List WSeg) (coord0 : ℚ) (coord : ℕ → ℚ)
    (root : WSeg) (rest : List WSeg)
    (hroot : segs[selectRootIdx segs.length coord0 coord - 1]? = some root)
    (hnd : (segs.map WSeg.sStart).Nodup)
    (hperm : segs.Perm (root :: rest))
    (hchain : chainB root rest = true) :
    check_segment_connection_wing segs coord0 coord = some (root :: rest) ∧
    (root :: rest).getD 0 ⟨0, 0, 0⟩ = root ∧
    ∀ j, j + 1 < (root :: rest).length →
      ((root :: rest).getD (j + 1) ⟨0, 0, 0⟩).sStart =
        ((root :: rest).getD j ⟨0, 0, 0⟩).sEnd := by
  have hlen : segs.length = rest.length + 1 := by
    simpa using hperm.length_eq
  have hlen1 : segs.length - 1 = rest.length := by omega
  have hsub : ∀ x ∈ rest, x ∈ segs := fun x hx =>
    hperm.symm.subset (List.mem_cons_of_mem root hx)
  have hcf : chainFrom segs root rest.length = some rest :=
    chainFrom_of_chainB segs hnd rest root hsub hchain
  refine ⟨?_, rfl, chainB_getD ⟨0, 0, 0⟩ rest root hchain⟩
  unfold check_segment_connection_wing
  simp only [hroot, hlen1, hcf]

/-- Witness for `C1_reordered_chain`: three scrambled segments
`2→3, 1→2, 3→4`; the scan keeps segment 1 as root (no outer coordinate
beats `coord0 = 0`) and the chain `1→2→3→4` is reproduced. -/
theorem C1_reordered_chain_witness :
    check_segment_connection_wing
        [⟨1, 2, 1⟩, ⟨3, 4, 3⟩, ⟨2, 3, 2⟩] 0 (fun j => (j : ℚ)) =
      some [⟨1, 2, 1⟩, ⟨2, 3, 2⟩, ⟨3, 4, 3⟩] :=
  (C1_reordered_chain [⟨1, 2, 1⟩, ⟨3, 4, 3⟩, ⟨2, 3, 2⟩] 0 (fun j => (j : ℚ))
    ⟨1, 2, 1⟩ [⟨2, 3, 2⟩, ⟨3, 4, 3⟩]
    (by norm_num [selectRootIdx, List.range'])
    (by decide)
    (List.Perm.cons (⟨1, 2, 1⟩ : WSeg)
      (List.Perm.swap (⟨2, 3, 2⟩ : WSeg) (⟨3, 4, 3⟩ : WSeg) []))
    (by decide)).1

/-! ## Per-wing section-index list
(bwbwingsanalysis.py lines 114-125) -/

/-- The `wing_sec_index` construction of lines 114-119 for one wing:
start from the single hard-coded first entry (line 114), then walk the
wing's reordered rows `j = 2 .. n` appending each start section not yet
present (lines 115-117), and finally append the last row's end section if
not yet present (lines 118-119). -/
def build_sec_index (firstEntry : ℕ) (reordered : List WSeg) : List ℕ :=
  let l1 := (reordered.drop 1).foldl
    (fun acc s => if s.sStart ∈ acc then acc else acc ++ [s.sStart]) [firstEntry]
  match reordered.getLast? with
  | some s => if s.sEnd ∈ l1 then l1 else l1 ++ [s.sEnd]
  | none => l1

/-- The section-index list the code produces for a wing `i`: line 114 is
literally `wing_sec_index.append(seg_sec_reordered[0,0,0])` — the start
section of the first reordered segment of wing 1 (array column 0), not of
wing `i`. -/
def sec_index_for_wing (reorderedW1 reorderedWi : List WSeg) : List ℕ :=
  build_sec_index (reorderedW1.headD ⟨0, 0, 0⟩).sStart reorderedWi

/-- C4: the section-index list is claimed to be the deduplicated section
sequence of the same wing's chain, beginning with that wing's root
section.  With wing 1 reordered to `1→2→3` and wing 2 reordered to
`5→6→7`, the code produces `[1, 6, 7]` for wing 2 — first entry 1 taken
from wing 1 (line 114 reads `seg_sec_reordered[0,0,0]` instead of
`[0,i-1,0]`) and section 5 missing — where the claim requires
`[5, 6, 7]`.  For wing 1 itself the construction does match the claim. -/
theorem C4_sec_index_first_entry_bug :
    sec_index_for_wing [⟨1, 2, 1⟩, ⟨2, 3, 2⟩] [⟨5, 6, 1⟩, ⟨6, 7, 2⟩] =
      [1, 6, 7] ∧
    [1, 6, 7] ≠ [5, 6, 7] ∧
    sec_index_for_wing [⟨5, 6, 1⟩, ⟨6, 7, 2⟩] [⟨5, 6, 1⟩, ⟨6, 7, 2⟩] =
      [5, 6, 7] :=
  ⟨rfl, by decide, rfl⟩
